import Mathlib

/-!
Verification development for the chili/vegetable price crawler
(`crawler/index.js`, with the legacy backfill variant and the frontend
consumer as context).  JavaScript strings are modelled as `List Char`
(`Str`), the `Map` used for the date-keyed dataset as an association
list in insertion order, and the run's interaction with the network as
explicit outcome parameters.
-/

namespace Crawler

/-- JavaScript strings, modelled as lists of characters. -/
abbrev Str := List Char

/-! ### Decimal rendering (JS `String(n)` for a natural number)

`natChars` is fuel-structured so that it evaluates by kernel reduction;
`natChars_eq` recovers the intended recursion. -/

/-- Fuel-driven digit expansion, most significant digit first. -/
def natCharsAux : Nat → Nat → Str
  | 0, _ => []
  | fuel + 1, n =>
    if n < 10 then [Nat.digitChar n]
    else natCharsAux fuel (n / 10) ++ [Nat.digitChar (n % 10)]

/-- Decimal representation of a natural number, as `String(n)` produces it. -/
def natChars (n : Nat) : Str := natCharsAux (n + 1) n

theorem natCharsAux_fuel {fuel₁ fuel₂ n : Nat} (h₁ : n < fuel₁) (h₂ : n < fuel₂) :
    natCharsAux fuel₁ n = natCharsAux fuel₂ n := by
  induction fuel₁ generalizing fuel₂ n with
  | zero => omega
  | succ f ih =>
    cases fuel₂ with
    | zero => omega
    | succ g =>
      simp only [natCharsAux]
      by_cases hn : n < 10
      · simp [hn]
      · have hd : n / 10 < f := by omega
        have hd' : n / 10 < g := by omega
        simp only [hn, if_false]
        rw [ih hd hd']

theorem natCharsAux_eq {fuel n : Nat} (h : n < fuel) :
    natCharsAux fuel n = if n < 10 then [Nat.digitChar n]
      else natCharsAux fuel (n / 10) ++ [Nat.digitChar (n % 10)] := by
  cases fuel with
  | zero => omega
  | succ f =>
    by_cases hn : n < 10
    · simp [natCharsAux, hn]
    · have hL : natCharsAux (f + 1) n
          = if n < 10 then [Nat.digitChar n]
            else natCharsAux f (n / 10) ++ [Nat.digitChar (n % 10)] := rfl
      rw [hL, if_neg hn, if_neg hn,
        natCharsAux_fuel (show n / 10 < f by omega) (show n / 10 < f + 1 by omega)]

theorem natChars_eq (n : Nat) :
    natChars n = if n < 10 then [Nat.digitChar n]
                 else natChars (n / 10) ++ [Nat.digitChar (n % 10)] := by
  rw [natChars, natCharsAux_eq (Nat.lt_succ_self n)]
  by_cases h : n < 10
  · simp [h]
  · simp only [h, if_false, natChars]
    rw [natCharsAux_fuel (show n / 10 < n + 1 by omega) (Nat.lt_succ_self _)]

/-- `String(n).padStart(2, '0')` as applied to month and day numbers. -/
def pad2 (n : Nat) : Str := if n < 10 then '0' :: natChars n else natChars n

/-- A Gregorian calendar date as read off a JS `Date`
(`getFullYear()`, `getMonth() + 1`, `getDate()`). -/
structure GDate where
  year : Nat
  month : Nat
  day : Nat
deriving DecidableEq

/-- `getRocDate` (crawler/index.js lines 32-37): Minguo era year, unpadded,
followed by zero-padded month and day. -/
def getRocDate (d : GDate) : Str :=
  natChars (d.year - 1911) ++ '/' :: (pad2 d.month ++ '/' :: pad2 d.day)

/-! ### The date-keyed store (`dataMap : Map<string, string[]>`) -/

/-- The in-memory dataset: date key to the bucket of CSV lines for that
date, in insertion order (a JS `Map` built by `set`/`push`). -/
abbrev Store := List (Str × List Str)

def emptyStore : Store := []

/-- `dataMap.has(k)`. -/
def hasKey (st : Store) (k : Str) : Bool := st.any (fun e => e.1 == k)

/-- `dataMap.get(k)`, defaulting to an empty bucket for an absent key. -/
def getBucket (st : Store) (k : Str) : List Str :=
  ((st.find? (fun e => e.1 == k)).map Prod.snd).getD []

/-- `if (!dataMap.has(k)) dataMap.set(k, [])`. -/
def setIfAbsent (st : Store) (k : Str) : Store :=
  if hasKey st k then st else st ++ [(k, [])]

/-- `dataMap.get(k).push(line)` for a key already present. -/
def pushLine (st : Store) (k : Str) (line : Str) : Store :=
  st.map (fun e => if e.1 == k then (e.1, e.2 ++ [line]) else e)

/-! ### Loading the persisted file (crawler/index.js lines 52-70) -/

/-- `s.trim()`: strip leading and trailing whitespace. -/
def jsTrim (l : Str) : Str :=
  ((l.dropWhile Char.isWhitespace).reverse.dropWhile Char.isWhitespace).reverse

/-- `l.trim().length === 0`, the blank-line test used by the load filter. -/
def isBlank (l : Str) : Bool := (jsTrim l).isEmpty

/-- `.replace(/['"]/g, '')` applied to the extracted key. -/
def stripQuotes (s : Str) : Str := s.filter (fun c => !(c == '"' || c == '\''))

/-- The key of a persisted line: the text before its first comma with
quotes removed, or `none` when the line has no comma
(`line.indexOf(',')` / `line.substring(0, firstComma)`). -/
def lineKey (line : Str) : Option Str :=
  if line.contains ',' then some (stripQuotes (line.takeWhile (· ≠ ','))) else none

/-- One iteration of the load loop on an already-trimmed line. -/
def loadLine (st : Store) (line : Str) : Store :=
  match lineKey line with
  | some k => pushLine (setIfAbsent st k) k line
  | none => st

/-- Rebuild the store from the file's lines: drop blank lines, skip the
header (index 0), trim each remaining line and bucket it by its key. -/
def load (lines : List Str) : Store :=
  ((lines.filter (fun l => !isBlank l)).drop 1).foldl
    (fun st l => loadLine st (jsTrim l)) emptyStore

/-! ### CSV rendering (`csv-stringify`) and serialization (lines 229-244) -/

/-- A CSV field, quoted exactly when it contains a delimiter, quote or
line break, with embedded quotes doubled. -/
def csvField (s : Str) : Str :=
  if s.any (fun c => c == ',' || c == '"' || c == '\n' || c == '\r') then
    '"' :: (s.flatMap (fun c => if c == '"' then ['"', '"'] else [c])) ++ ['"']
  else s

/-- One CSV line from a list of cells. -/
def csvLine (cells : List Str) : Str := List.intercalate [','] (cells.map csvField)

/-- The fixed header row `Date,Market,...,Volume`. -/
def headerLine : Str :=
  ('D' :: 'a' :: 't' :: 'e' :: ',' :: []) ++
  "Market,Code,Name,Variety,High,Mid,Low,Avg,Volume".data

/-- `Array.from(dataMap.keys()).sort().reverse()`: the stored date keys in
descending lexicographic order. -/
def sortedKeysDesc (st : Store) : List Str :=
  (List.insertionSort (· ≤ ·) (st.map Prod.fst)).reverse

/-- The rows the writer emits: the header, then every bucket's lines with
buckets in descending key order. -/
def serialize (st : Store) : List Str :=
  headerLine :: (sortedKeysDesc st).flatMap (fun k => getBucket st k)

/-- File content from a list of rows (each row followed by a newline). -/
def render (lines : List Str) : Str := lines.flatMap (fun l => l ++ ['\n'])

/-- The write phase: the file is opened with the `'w'` flag, so the previous
content is discarded and the file becomes exactly the serialized rows. -/
def flush (oldContent : Str) (st : Store) : Str := render (serialize st)

/-! ### Record extraction (crawler/index.js lines 182-202) -/

/-- `code.startsWith('FV')`. -/
def startsWithFV : Str → Bool
  | 'F' :: 'V' :: _ => true
  | _ => false

/-- A table row qualifies when it has at least 8 cells and its first cell
carries the vegetable category-code marker. -/
def qualifies (cols : List Str) : Bool :=
  decide (8 ≤ cols.length) && startsWithFV (cols.getD 0 [])

/-- The record row pushed for a qualifying table row: date, market label,
then the first eight cells copied verbatim. -/
def toRow (dateKey market : Str) (cols : List Str) : List Str :=
  [dateKey, market, cols.getD 0 [], cols.getD 1 [], cols.getD 2 [], cols.getD 3 [],
   cols.getD 4 [], cols.getD 5 [], cols.getD 6 [], cols.getD 7 []]

/-- Extraction: scan the table rows in order, keep qualifying ones. -/
def extract (dateKey market : Str) (table : List (List Str)) : List (List Str) :=
  (table.filter qualifies).map (toRow dateKey market)

/-! ### Absorbing fetched rows into the store (lines 204-219) -/

/-- Rendered CSV lines for the extracted rows (`stringify(rows)` split back
into lines). -/
def csvLines (rows : List (List Str)) : List Str := rows.map csvLine

/-- The merge step for one `(date, market)` fetch result: only when at
least one row was found does the bucket get created and the trimmed
non-blank lines appended. -/
def absorbStep (st : Store) (k : Str) (rows : List (List Str)) : Store :=
  if rows.length > 0 then
    (csvLines rows).foldl
      (fun s l => if isBlank l then s else pushLine s k (jsTrim l))
      (setIfAbsent st k)
  else st

/-! ### Planning (lines 135-142) and the crawl loop (lines 135-227) -/

/-- A market option: form value and display text. -/
structure Market where
  val : Str
  txt : Str
deriving DecidableEq

/-- The dates of the window that survive the completeness check
(`if (dataMap.has(rocDate)) continue`). -/
def planDates (st : Store) (dates : List GDate) : List GDate :=
  dates.filter (fun d => !hasKey st (getRocDate d))

/-- The planned `(date, market)` units: for each non-skipped date, every
market in catalog order. -/
def plan (st : Store) (dates : List GDate) (markets : List Market) :
    List (GDate × Market) :=
  (planDates st dates).flatMap (fun d => markets.map (fun m => (d, m)))

/-- The outcome of one POST for a `(date, market)` unit: a transport
failure, or a response whose parsed table rows are given. -/
inductive FetchOutcome where
  | failure : FetchOutcome
  | success : List (List Str) → FetchOutcome
deriving DecidableEq

/-- One unit of the inner market loop: the `catch` arm only logs, so a
failure leaves the store untouched. -/
def processUnit (st : Store) (k : Str) (m : Market) (out : FetchOutcome) : Store :=
  match out with
  | .failure => st
  | .success table => absorbStep st k (extract k m.txt table)

/-- The inner loop over the market catalog for one date. -/
def processDate (st : Store) (k : Str) (markets : List Market)
    (out : Market → FetchOutcome) : Store :=
  markets.foldl (fun s m => processUnit s k m (out m)) st

/-- The dated crawl loop: skip dates already present, otherwise run every
market for the date. -/
def runCrawl (st : Store) (dates : List GDate) (markets : List Market)
    (out : GDate → Market → FetchOutcome) : Store :=
  dates.foldl
    (fun s d =>
      if hasKey s (getRocDate d) then s
      else processDate s (getRocDate d) markets (out d)) st

/-! ### Session token refresh (lines 97-105 and 170-179) -/

/-- The four pieces of session state threaded between requests. -/
structure SessionState where
  cookies : Str
  viewState : Str
  viewStateGenerator : Str
  eventValidation : Str
deriving DecidableEq

/-- What a response offers for each piece: `none` when the header or
hidden input is absent, otherwise the raw value found. -/
structure ResponseTokens where
  setCookie : Option (List Str)
  viewState : Option Str
  viewStateGenerator : Option Str
  eventValidation : Option Str

/-- `c.split(';')[0]`: the cookie pair before any attribute. -/
def cookiePart (c : Str) : Str := c.takeWhile (· ≠ ';')

/-- `res.headers['set-cookie'].map(c => c.split(';')[0]).join('; ')`. -/
def joinCookies (cs : List Str) : Str :=
  List.intercalate (';' :: ' ' :: []) (cs.map cookiePart)

/-- `newVal || old`: the hidden-input update keeps the old token when the
input is absent, and also when it is present but empty (falsy). -/
def refreshTok (newVal : Option Str) (old : Str) : Str :=
  match newVal with
  | some v => if v.isEmpty then old else v
  | none => old

/-- The per-response session update (cookies only when a `set-cookie`
header arrived; tokens via the `||` fallback). -/
def refresh (res : ResponseTokens) (prev : SessionState) : SessionState :=
  { cookies :=
      match res.setCookie with
      | some cs => joinCookies cs
      | none => prev.cookies
    viewState := refreshTok res.viewState prev.viewState
    viewStateGenerator := refreshTok res.viewStateGenerator prev.viewStateGenerator
    eventValidation := refreshTok res.eventValidation prev.eventValidation }

/-! ### Effect of a run on the destination file

The destination is `Option Str`: `none` when the file does not exist. -/

/-- The merge engine (crawler/index.js): the file is only read before the
crawl; a failed initial GET returns from `main` before any write, and a
completed run rewrites the file from the final store. -/
def indexRunFile (dest : Option Str) (initFetchFails : Bool) (finalStore : Store) :
    Option Str :=
  if initFetchFails then dest else some (flush (dest.getD []) finalStore)

/-- The legacy backfill variant: it first creates the file with the header
row when absent, then performs the initial GET (aborting on failure), and
otherwise appends fetched lines. -/
def part1RunFile (dest : Option Str) (initFetchFails : Bool) (appended : List Str) :
    Option Str :=
  let dest1 : Str :=
    match dest with
    | some c => c
    | none => render [headerLine]
  if initFetchFails then some dest1 else some (dest1 ++ render appended)

/-! ### Spec-side numeric coercion (for comparison with the extractor) -/

/-- Value of a digit string, most significant first. -/
def digitsVal (s : Str) : Nat :=
  s.foldl (fun acc c => acc * 10 + (c.toNat - '0'.toNat)) 0

/-- Modelled from the spec: the numeric coercion the spec ascribes to the
extractor — "parsed from locale-formatted text (comma thousands
separators) and default to 0 on parse failure" — restricted to the
integer-valued texts the spec's example uses.  The extractor in the code
performs no such coercion; this definition exists to compare the spec's
claimed record values with what the code emits. -/
def specCoerceNum (s : Str) : Nat :=
  let t := s.filter (fun c => c ≠ ',')
  if t ≠ [] ∧ t.all Char.isDigit then digitsVal t else 0

/-! ## Basic store lemmas -/

theorem hasKey_iff {st : Store} {k : Str} :
    hasKey st k = true ↔ k ∈ st.map Prod.fst := by
  simp [hasKey, List.any_eq_true, List.mem_map]

theorem pushLine_cons (e : Str × List Str) (st : Store) (k line : Str) :
    pushLine (e :: st) k line
      = (if e.1 == k then (e.1, e.2 ++ [line]) else e) :: pushLine st k line := rfl

theorem getBucket_cons_pos {e : Str × List Str} {st : Store} {k : Str}
    (h : (e.1 == k) = true) : getBucket (e :: st) k = e.2 := by
  simp [getBucket, List.find?_cons, h]

theorem getBucket_cons_neg {e : Str × List Str} {st : Store} {k : Str}
    (h : (e.1 == k) = false) : getBucket (e :: st) k = getBucket st k := by
  simp [getBucket, List.find?_cons, h]

theorem keys_pushLine (st : Store) (k line : Str) :
    (pushLine st k line).map Prod.fst = st.map Prod.fst := by
  induction st with
  | nil => rfl
  | cons e st ih =>
    rw [pushLine_cons, List.map_cons, List.map_cons, ih]
    by_cases h : (e.1 == k) = true
    · rw [if_pos h]
    · rw [if_neg (by simpa using h)]

theorem hasKey_eq_keys (st : Store) (k : Str) :
    hasKey st k = (st.map Prod.fst).any (fun x => x == k) := by
  induction st with
  | nil => rfl
  | cons e st ih =>
    simp only [hasKey, List.any_cons, List.map_cons] at *
    rw [ih]

theorem hasKey_pushLine (st : Store) (k k' line : Str) :
    hasKey (pushLine st k line) k' = hasKey st k' := by
  rw [hasKey_eq_keys, hasKey_eq_keys, keys_pushLine]

theorem hasKey_setIfAbsent_self (st : Store) (k : Str) :
    hasKey (setIfAbsent st k) k = true := by
  unfold setIfAbsent
  by_cases h : hasKey st k
  · simpa [h]
  · rw [if_neg h]
    simp [hasKey, List.any_append]

theorem getBucket_pushLine_self (st : Store) (k line : Str)
    (h : hasKey st k = true) :
    getBucket (pushLine st k line) k = getBucket st k ++ [line] := by
  induction st with
  | nil => simp [hasKey] at h
  | cons e st ih =>
    cases hk : (e.1 == k) with
    | true =>
      have hpush : pushLine (e :: st) k line = (e.1, e.2 ++ [line]) :: pushLine st k line := by
        rw [pushLine_cons, if_pos hk]
      rw [hpush, getBucket_cons_pos (by simpa using hk), getBucket_cons_pos hk]
    | false =>
      have hst : hasKey st k = true := by
        simp only [hasKey, List.any_cons, hk, Bool.false_or] at h
        exact h
      have hpush : pushLine (e :: st) k line = e :: pushLine st k line := by
        rw [pushLine_cons, if_neg (by simp [hk])]
      rw [hpush, getBucket_cons_neg hk, getBucket_cons_neg hk, ih hst]

theorem find?_eq_none_of_not_hasKey {st : Store} {k : Str}
    (h : ¬ hasKey st k = true) :
    st.find? (fun e => e.1 == k) = none := by
  rw [List.find?_eq_none]
  intro e he hbeq
  exact h (by simp only [hasKey, List.any_eq_true]; exact ⟨e, he, hbeq⟩)

theorem getBucket_setIfAbsent (st : Store) (k k' : Str) :
    getBucket (setIfAbsent st k) k' = getBucket st k' := by
  unfold setIfAbsent
  by_cases h : hasKey st k
  · simp [h]
  · rw [if_neg h]
    by_cases hk : k = k'
    · subst hk
      have hfind := find?_eq_none_of_not_hasKey h
      simp [getBucket, List.find?_append, hfind]
    · have htail : List.find? (fun e => e.1 == k') [(k, ([] : List Str))] = none := by
        rw [List.find?_cons_of_neg]
        · rfl
        · simp [hk]
      simp only [getBucket, List.find?_append, htail]
      cases hfind : st.find? (fun e => e.1 == k') <;> simp [hfind]

theorem hasKey_setIfAbsent (st : Store) (k k' : Str) (h : hasKey st k' = true) :
    hasKey (setIfAbsent st k) k' = true := by
  unfold setIfAbsent
  by_cases hk : hasKey st k
  · simpa [hk]
  · rw [if_neg hk]
    simp only [hasKey, List.any_append, Bool.or_eq_true]
    exact Or.inl h

/-- The non-blank absorbed lines, trimmed, in order. -/
def absorbedLines (rows : List (List Str)) : List Str :=
  (csvLines rows).filterMap (fun l => if isBlank l then none else some (jsTrim l))

theorem foldl_pushLines (lines : List Str) (k : Str) :
    ∀ st : Store, hasKey st k = true →
    hasKey (lines.foldl (fun s l => if isBlank l then s else pushLine s k (jsTrim l)) st) k = true ∧
    getBucket (lines.foldl (fun s l => if isBlank l then s else pushLine s k (jsTrim l)) st) k
      = getBucket st k ++
        lines.filterMap (fun l => if isBlank l then none else some (jsTrim l)) := by
  induction lines with
  | nil => intro st h; simp [h]
  | cons l ls ih =>
    intro st h
    by_cases hb : isBlank l = true
    · simpa [hb] using ih st h
    · have h1 : hasKey (pushLine st k (jsTrim l)) k = true := by
        rw [hasKey_pushLine]; exact h
      have hrec := ih (pushLine st k (jsTrim l)) h1
      rw [List.foldl_cons, if_neg hb]
      refine ⟨hrec.1, ?_⟩
      rw [hrec.2, getBucket_pushLine_self st k (jsTrim l) h, List.filterMap_cons]
      simp [hb, List.append_assoc]

/-! ## C1: completeness marking by `absorb` -/

/-- Concrete date and markets used in counterexamples and witnesses. -/
def d113 : GDate := ⟨2024, 11, 29⟩

def d112 : GDate := ⟨2024, 11, 28⟩

def market1 : Market := ⟨"1".data, "A".data⟩

def market2 : Market := ⟨"2".data, "B".data⟩

/-- An example qualifying table row (spec §8). -/
def exampleCols : List Str :=
  ["FV001".data, "蔥".data, "粉蔥".data, "100".data, "90".data, "80".data,
   "88".data, "1,234".data]

/-- C1, counterexample: absorbing the empty record list does not mark the
date complete — the store is unchanged, the date has no key, and a later
plan over that store still yields the date. -/
theorem absorb_empty_counterexample :
    absorbStep emptyStore (getRocDate d113) [] = emptyStore ∧
    hasKey (absorbStep emptyStore (getRocDate d113) []) (getRocDate d113) = false ∧
    plan (absorbStep emptyStore (getRocDate d113) []) [d113] [market1]
      = [(d113, market1)] := by
  refine ⟨rfl, by decide, by decide⟩

/-- C1 (amended): `absorb(date, records)` with non-empty `records` creates
the date's bucket if absent, appends the trimmed non-blank CSV lines to
it, and marks the date complete so a later plan never yields it; with
empty `records` the store is left unchanged (the date is not marked
complete). -/
theorem absorb_marks_complete_iff_nonempty (st : Store) (k : Str)
    (rows : List (List Str)) :
    (rows = [] → absorbStep st k rows = st) ∧
    (rows ≠ [] → hasKey (absorbStep st k rows) k = true) ∧
    (rows ≠ [] →
      getBucket (absorbStep st k rows) k = getBucket st k ++ absorbedLines rows) ∧
    (rows ≠ [] → ∀ dates : List GDate, ∀ d ∈ planDates (absorbStep st k rows) dates,
      getRocDate d ≠ k) := by
  refine ⟨?_, ?_, ?_, ?_⟩
  · intro h; subst h; rfl
  · intro h
    have hlen : rows.length > 0 := List.length_pos.mpr h
    unfold absorbStep
    simp only [hlen, if_true]
    exact (foldl_pushLines (csvLines rows) k _ (hasKey_setIfAbsent_self st k)).1
  · intro h
    have hlen : rows.length > 0 := List.length_pos.mpr h
    unfold absorbStep
    simp only [hlen, if_true]
    rw [(foldl_pushLines (csvLines rows) k _ (hasKey_setIfAbsent_self st k)).2,
      getBucket_setIfAbsent]
    rfl
  · intro h dates d hd hkey
    have hk : hasKey (absorbStep st k rows) k = true := by
      have hlen : rows.length > 0 := List.length_pos.mpr h
      unfold absorbStep
      simp only [hlen, if_true]
      exact (foldl_pushLines (csvLines rows) k _ (hasKey_setIfAbsent_self st k)).1
    simp only [planDates, List.mem_filter] at hd
    rw [hkey, hk] at hd
    simpa using hd.2

/-- C1 witness: the amended statement applied to a one-row absorb. -/
theorem absorb_marks_complete_iff_nonempty_witness :
    hasKey (absorbStep emptyStore (getRocDate d113) [exampleCols]) (getRocDate d113)
      = true :=
  (absorb_marks_complete_iff_nonempty emptyStore (getRocDate d113)
    [exampleCols]).2.1 (List.cons_ne_nil _ _)

/-! ## C2: the planner never yields a complete date -/

/-- C2, counterexample: a store in which the most recent date of the
window is complete; the planner does not re-yield that date (there is no
"always re-yield the latest lookback dates" exception in the code). -/
theorem plan_no_lookback_exception_counterexample :
    hasKey [(getRocDate d113, ["x".data])] (getRocDate d113) = true ∧
    plan [(getRocDate d113, ["x".data])] [d113, d112] [market1]
      = [(d112, market1)] ∧
    ∀ u ∈ plan [(getRocDate d113, ["x".data])] [d113, d112] [market1],
      u.1 ≠ d113 := by
  refine ⟨by decide, by decide, by decide⟩

/-- C2 (amended): for every store and window, the planner never yields a
unit whose date is already complete in the store — without exception;
recent dates are reconsidered across runs only because the incremental
window is re-anchored to the current day, never by overriding the
completeness check. -/
theorem plan_skips_complete_dates (st : Store) (dates : List GDate)
    (markets : List Market) (d : GDate) (m : Market)
    (h : (d, m) ∈ plan st dates markets) :
    hasKey st (getRocDate d) = false := by
  simp only [plan, List.mem_flatMap, List.mem_map] at h
  obtain ⟨d', hd', m', _, heq⟩ := h
  have hdd : d' = d := congrArg Prod.fst heq
  subst hdd
  simp only [planDates, List.mem_filter] at hd'
  simpa using hd'.2

/-- C2 witness: a planned unit over a store where its date is absent. -/
theorem plan_skips_complete_dates_witness :
    hasKey ([(getRocDate d113, ["x".data])] : Store) (getRocDate d112) = false :=
  plan_skips_complete_dates [(getRocDate d113, ["x".data])] [d113, d112]
    [market1] d112 market1 (by decide)

/-! ## C8: the row-qualification filter -/

/-- C8: a table row contributes a record exactly when it has at least the
expected 8 cells and its first cell starts with the category prefix "FV";
every emitted record arises from such a row, and dropping the
non-qualifying rows from the input leaves the extractor nothing to emit
(they are skipped without any error). -/
theorem extract_qualifying_rows (dk mkt : Str) (table : List (List Str)) :
    (∀ r ∈ extract dk mkt table,
      ∃ cols ∈ table, qualifies cols = true ∧ r = toRow dk mkt cols) ∧
    (∀ cols ∈ table, qualifies cols = true → toRow dk mkt cols ∈ extract dk mkt table) ∧
    (∀ cols : List Str, qualifies cols = true ↔
      8 ≤ cols.length ∧ startsWithFV (cols.getD 0 []) = true) ∧
    extract dk mkt (table.filter (fun c => !qualifies c)) = [] := by
  refine ⟨?_, ?_, ?_, ?_⟩
  · intro r hr
    simp only [extract, List.mem_map, List.mem_filter] at hr
    obtain ⟨cols, ⟨hmem, hq⟩, heq⟩ := hr
    exact ⟨cols, hmem, hq, heq.symm⟩
  · intro cols hmem hq
    simp only [extract, List.mem_map]
    exact ⟨cols, List.mem_filter.mpr ⟨hmem, hq⟩, rfl⟩
  · intro cols
    simp [qualifies, Bool.and_eq_true, decide_eq_true_iff]
  · simp only [extract, List.filter_filter]
    have : (fun c => qualifies c && !qualifies c) = fun _ => false := by
      funext c; cases qualifies c <;> rfl
    rw [this, List.filter_false, List.map_nil]

/-- C8 witness: the example row qualifies and its record is emitted. -/
theorem extract_qualifying_rows_witness :
    toRow "113/11/29".data "第一市場".data exampleCols
      ∈ extract "113/11/29".data "第一市場".data [exampleCols] :=
  (extract_qualifying_rows "113/11/29".data "第一市場".data [exampleCols]).2.1
    exampleCols (List.mem_singleton.mpr rfl) (by decide)

/-! ## C4: no numeric coercion at extraction -/

/-- C4, counterexample: for the spec's example row the record's Volume
cell is the raw text "1,234", not (any rendering of) the coerced number
1234; the comma-stripped value 1234 exists only under the spec-side
coercion, which the extractor does not apply. -/
theorem extract_no_coercion_counterexample :
    ((extract "113/11/29".data "第一市場".data [exampleCols]).getD 0 []).getD 9 []
      = "1,234".data ∧
    specCoerceNum ("1,234".data) = 1234 ∧
    natChars 1234 = "1234".data ∧
    ((extract "113/11/29".data "第一市場".data [exampleCols]).getD 0 []).getD 9 []
      ≠ "1234".data := by decide

/-- C4 (amended): extraction performs no numeric coercion — each numeric
cell (High, Mid, Low, Avg, Volume) of an emitted record is the raw cell
text copied verbatim (for the example row: Avg text "88", Volume text
"1,234"); the comma-stripping parse-with-default-0 belongs to the
downstream consumer of the file, not to the extractor. -/
theorem extract_copies_numeric_cells (dk mkt : Str) (cols : List Str)
    (h : qualifies cols = true) :
    extract dk mkt [cols] = [toRow dk mkt cols] ∧
    (toRow dk mkt cols).getD 9 [] = cols.getD 7 [] ∧
    (toRow dk mkt cols).getD 8 [] = cols.getD 6 [] ∧
    (toRow dk mkt cols).getD 7 [] = cols.getD 5 [] ∧
    (toRow dk mkt cols).getD 6 [] = cols.getD 4 [] ∧
    (toRow dk mkt cols).getD 5 [] = cols.getD 3 [] := by
  refine ⟨by simp [extract, h], rfl, rfl, rfl, rfl, rfl⟩

/-- C4 witness: the amended statement at the example row. -/
theorem extract_copies_numeric_cells_witness :
    extract "113/11/29".data "第一市場".data [exampleCols]
      = [toRow "113/11/29".data "第一市場".data exampleCols] :=
  (extract_copies_numeric_cells "113/11/29".data "第一市場".data exampleCols
    (by decide)).1

/-! ## C9: session token refresh -/

/-- A previous session with non-empty tokens. -/
def prevSession : SessionState :=
  ⟨"c=1".data, "OLDVS".data, "OLDGEN".data, "OLDEV".data⟩

/-- C9, counterexample: a response that contains __VIEWSTATE but with the
empty value; the claim says the field is replaced by the value found when
present, yet the code's `|| previous` fallback keeps the old token. -/
theorem refresh_empty_token_counterexample :
    (⟨none, some [], none, none⟩ : ResponseTokens).viewState = some [] ∧
    (refresh ⟨none, some [], none, none⟩ prevSession).viewState = "OLDVS".data ∧
    (refresh ⟨none, some [], none, none⟩ prevSession).viewState ≠ ([] : Str) := by
  refine ⟨rfl, rfl, by decide⟩

/-- C9 (amended): refresh is field-by-field — each hidden-field token is
replaced by the response's value when present and non-empty, and the
previous value is retained when the field is absent or present-but-empty
(tokens are never cleared); the cookie string is rebuilt whenever a
set-cookie header is present and retained otherwise; in particular a
response missing __VIEWSTATE leaves the prior value intact. -/
theorem refresh_field_by_field (res : ResponseTokens) (prev : SessionState) :
    (res.viewState = none → (refresh res prev).viewState = prev.viewState) ∧
    (∀ v, res.viewState = some v →
      (refresh res prev).viewState = if v.isEmpty then prev.viewState else v) ∧
    (res.viewStateGenerator = none →
      (refresh res prev).viewStateGenerator = prev.viewStateGenerator) ∧
    (∀ v, res.viewStateGenerator = some v →
      (refresh res prev).viewStateGenerator
        = if v.isEmpty then prev.viewStateGenerator else v) ∧
    (res.eventValidation = none →
      (refresh res prev).eventValidation = prev.eventValidation) ∧
    (∀ v, res.eventValidation = some v →
      (refresh res prev).eventValidation
        = if v.isEmpty then prev.eventValidation else v) ∧
    (res.setCookie = none → (refresh res prev).cookies = prev.cookies) ∧
    (∀ cs, res.setCookie = some cs → (refresh res prev).cookies = joinCookies cs) := by
  refine ⟨?_, ?_, ?_, ?_, ?_, ?_, ?_, ?_⟩
  · intro h; simp [refresh, refreshTok, h]
  · intro v h; simp [refresh, refreshTok, h]
  · intro h; simp [refresh, refreshTok, h]
  · intro v h; simp [refresh, refreshTok, h]
  · intro h; simp [refresh, refreshTok, h]
  · intro v h; simp [refresh, refreshTok, h]
  · intro h; simp [refresh, h]
  · intro cs h; simp [refresh, h]

/-- C9 witness: a response missing __VIEWSTATE keeps the prior token. -/
theorem refresh_field_by_field_witness :
    (refresh ⟨none, none, none, none⟩ prevSession).viewState
      = prevSession.viewState :=
  (refresh_field_by_field ⟨none, none, none, none⟩ prevSession).1 rfl

/-! ## C5: failed session initialization and the destination file -/

/-- C5, counterexample: the legacy backfill variant creates the missing
destination with the header row BEFORE the session-initializing fetch, so
an init failure aborts the run with the destination changed from absent
to a header-only file. -/
theorem part1_init_failure_counterexample :
    part1RunFile none true [] = some (render [headerLine]) ∧
    part1RunFile none true [] ≠ none :=
  ⟨rfl, by simp [part1RunFile]⟩

/-- C5 (amended): a failed session-initializing fetch aborts the run; the
merge engine reads the destination but writes it only in the final flush
phase, so on an init failure the destination — existing or absent — is
exactly as before; the legacy backfill variant, however, first creates an
absent destination with the header row, so there an init failure can
leave a newly created header-only file (an existing file's content is
still never modified). -/
theorem init_failure_leaves_destination (dest : Option Str) (st : Store)
    (c : Str) (appended : List Str) :
    indexRunFile dest true st = dest ∧
    part1RunFile (some c) true appended = some c ∧
    part1RunFile none true appended = some (render [headerLine]) :=
  ⟨rfl, rfl, rfl⟩

/-! ## C6: fetch failures are isolated per unit -/

/-- The outcome assignment where market 1's fetch fails and every other
market returns the example row. -/
def failThenSucceed : GDate → Market → FetchOutcome := fun _ m =>
  if m.val = "1".data then .failure else .success [exampleCols]

/-- C6, counterexample: market 1 fails on the date but market 2 succeeds
with records; the date then IS complete in the resulting store and the
next run's planner yields nothing for it, so the failed (date, market)
unit is not retried — contradicting "leaves that date incomplete". -/
theorem fetch_failure_counterexample :
    failThenSucceed d113 market1 = .failure ∧
    hasKey (runCrawl emptyStore [d113] [market1, market2] failThenSucceed)
      (getRocDate d113) = true ∧
    plan (runCrawl emptyStore [d113] [market1, market2] failThenSucceed)
      [d113] [market1, market2] = [] := by decide

/-- C6 (amended): a fetch failure for one (date, market) unit leaves the
store untouched by that unit, and the run proceeds as if the failing unit
were absent — the same date's other markets and all other dates are
processed identically; the date is left incomplete (and so retried on the
next run) precisely when no market's fetch for it absorbed records, while
a success with records for another market completes the date despite the
failure. -/
theorem fetch_failure_isolated (st : Store) (k : Str) (m : Market)
    (markets ms1 ms2 : List Market) (out : Market → FetchOutcome)
    (hfail : out m = .failure) :
    processUnit st k m .failure = st ∧
    processDate st k (ms1 ++ m :: ms2) out = processDate st k (ms1 ++ ms2) out ∧
    ((∀ m' ∈ markets, out m' = .failure) → processDate st k markets out = st) := by
  refine ⟨rfl, ?_, ?_⟩
  · simp only [processDate, List.foldl_append, List.foldl_cons, hfail]
    rfl
  · intro hall
    induction markets with
    | nil => rfl
    | cons m' ms ih =>
      have h1 : out m' = .failure := hall m' (by simp)
      have hstep : processDate st k (m' :: ms) out = processDate st k ms out := by
        simp only [processDate, List.foldl_cons, h1]
        rfl
      rw [hstep]
      exact ih (fun x hx => hall x (by simp [hx]))

/-- C6 witness: an all-failures date leaves the store unchanged. -/
theorem fetch_failure_isolated_witness :
    processDate emptyStore (getRocDate d113) [market1] (fun _ => .failure)
      = emptyStore :=
  (fetch_failure_isolated emptyStore (getRocDate d113) market1 [market1] [] []
    (fun _ => .failure) rfl).2.2 (fun _ _ => rfl)

/-! ## C3: the writer's full rewrite and the serialization order -/

theorem sortedKeysDesc_sorted (st : Store) :
    List.Sorted (fun a b : Str => b ≤ a) (sortedKeysDesc st) := by
  unfold sortedKeysDesc
  rw [List.Sorted, List.pairwise_reverse]
  exact List.sorted_insertionSort _ _

theorem sortedKeysDesc_perm (st : Store) :
    List.Perm (sortedKeysDesc st) (st.map Prod.fst) :=
  (List.reverse_perm _).trans (List.perm_insertionSort _ _)

theorem getBucket_of_mem {st : Store} (hnd : (st.map Prod.fst).Nodup)
    {k : Str} {b : List Str} (hmem : (k, b) ∈ st) : getBucket st k = b := by
  induction st with
  | nil => cases hmem
  | cons e st ih =>
    rcases List.mem_cons.mp hmem with heq | hmem'
    · cases heq.symm
      exact getBucket_cons_pos (by simp)
    · have hk : e.1 ≠ k := by
        intro hkk
        have : k ∈ st.map Prod.fst := by
          exact List.mem_map.mpr ⟨(k, b), hmem', rfl⟩
        rw [List.map_cons, hkk] at hnd
        exact (List.nodup_cons.mp hnd).1 this
      rw [getBucket_cons_neg (by simp [hk])]
      exact ih ((List.nodup_cons.mp (by rw [List.map_cons] at hnd; exact hnd)).2) hmem'

/-- C3: the write phase is a full rewrite, never an append — the file
content is exactly `render (serialize store)` regardless of the previous
content; the serialization is the fixed header row followed by every
bucket's rows with buckets in descending key order and rows within a
bucket in absorption order; an empty store yields only the header row. -/
theorem flush_full_rewrite (oldContent : Str) (st : Store)
    (hnd : (st.map Prod.fst).Nodup) :
    flush oldContent st = render (serialize st) ∧
    flush oldContent emptyStore = render [headerLine] ∧
    serialize st = headerLine :: (sortedKeysDesc st).flatMap (fun k => getBucket st k) ∧
    List.Sorted (· ≥ ·) (sortedKeysDesc st) ∧
    List.Perm (sortedKeysDesc st) (st.map Prod.fst) ∧
    (∀ k b, (k, b) ∈ st → getBucket st k = b) ∧
    serialize emptyStore = [headerLine] := by
  refine ⟨rfl, rfl, rfl, sortedKeysDesc_sorted st, sortedKeysDesc_perm st,
    fun k b hmem => getBucket_of_mem hnd hmem, rfl⟩

/-- C3 witness: the structure facts at a concrete two-day store. -/
theorem flush_full_rewrite_witness :
    List.Sorted (· ≥ ·) (sortedKeysDesc
      [("113/11/28".data, ["a".data]), ("113/11/29".data, ["b".data])]) :=
  (flush_full_rewrite []
    [("113/11/28".data, ["a".data]), ("113/11/29".data, ["b".data])]
    (by decide)).2.2.2.1

/-! ## C7: load/serialize round-trip stability -/

/-- Well-formedness that the program's stores satisfy (a `MergeStore`
holds, for each date key, the records *of that date*): distinct keys, and
every bucket line is a trimmed, non-blank line whose first field (the
text before the first comma, quotes stripped) is its bucket's key. -/
def WFStore (st : Store) : Prop :=
  (st.map Prod.fst).Nodup ∧
  ∀ e ∈ st, ∀ line ∈ e.2,
    lineKey line = some e.1 ∧ jsTrim line = line ∧ isBlank line = false

instance (st : Store) : Decidable (WFStore st) := by
  unfold WFStore
  exact instDecidableAnd

/-- The store that reloading a serialized store produces: its non-empty
buckets, in serialization order. -/
def groupsOut (ks : List Str) (f : Str → List Str) : Store :=
  ks.filterMap (fun k => if f k = [] then none else some (k, f k))

theorem setIfAbsent_of_hasKey {st : Store} {k : Str} (h : hasKey st k = true) :
    setIfAbsent st k = st := by
  unfold setIfAbsent; rw [if_pos h]

theorem pushLine_of_not_hasKey {st : Store} {k : Str}
    (h : ¬ k ∈ st.map Prod.fst) (line : Str) : pushLine st k line = st := by
  induction st with
  | nil => rfl
  | cons e st ih =>
    have h1 : ¬ k = e.1 ∧ ¬ k ∈ st.map Prod.fst := by
      simp only [List.map_cons, List.mem_cons] at h
      push_neg at h
      exact h
    rw [pushLine_cons]
    have he : ¬ ((e.1 == k) = true) := by
      simp only [beq_iff_eq]
      exact fun hk => h1.1 hk.symm
    rw [if_neg he, ih h1.2]

theorem pushLine_append (s₁ s₂ : Store) (k line : Str) :
    pushLine (s₁ ++ s₂) k line = pushLine s₁ k line ++ pushLine s₂ k line :=
  List.map_append _ _ _

theorem foldl_loadLine_bucket (lines : List Str) (k : Str) :
    ∀ (st : Store) (acc : List Str),
    (∀ l ∈ lines, lineKey l = some k ∧ jsTrim l = l) →
    ¬ k ∈ st.map Prod.fst →
    lines.foldl (fun s l => loadLine s (jsTrim l)) (st ++ [(k, acc)])
      = st ++ [(k, acc ++ lines)] := by
  induction lines with
  | nil => intro st acc _ _; simp
  | cons l ls ih =>
    intro st acc hl hk
    have hl1 := hl l (by simp)
    rw [List.foldl_cons]
    have hstep : loadLine (st ++ [(k, acc)]) (jsTrim l) = st ++ [(k, acc ++ [l])] := by
      rw [hl1.2]
      simp only [loadLine, hl1.1]
      have hhk : hasKey (st ++ [(k, acc)]) k = true := by
        simp [hasKey, List.any_append]
      rw [setIfAbsent_of_hasKey hhk, pushLine_append, pushLine_of_not_hasKey hk l]
      congr 1
      simp [pushLine]
    rw [hstep, ih st (acc ++ [l]) (fun x hx => hl x (by simp [hx])) hk]
    simp

theorem foldl_loadLine_groups (ks : List Str) (f : Str → List Str) :
    ∀ st : Store,
    ks.Nodup →
    (∀ k ∈ ks, ∀ l ∈ f k, lineKey l = some k ∧ jsTrim l = l) →
    (∀ k ∈ ks, ¬ k ∈ st.map Prod.fst) →
    (ks.flatMap f).foldl (fun s l => loadLine s (jsTrim l)) st
      = st ++ groupsOut ks f := by
  induction ks with
  | nil => intro st _ _ _; simp [groupsOut]
  | cons k ks ih =>
    intro st hnd hlines hdisj
    rw [List.flatMap_cons, List.foldl_append]
    by_cases hfk : f k = []
    · rw [hfk]
      simp only [List.foldl_nil]
      rw [ih st (List.nodup_cons.mp hnd).2
        (fun x hx => hlines x (by simp [hx]))
        (fun x hx => hdisj x (by simp [hx]))]
      unfold groupsOut
      rw [List.filterMap_cons]
      simp [hfk]
    · obtain ⟨l, ls, hfk'⟩ := List.exists_cons_of_ne_nil hfk
      have hkst : ¬ k ∈ st.map Prod.fst := hdisj k (by simp)
      have hl1 := hlines k (by simp) l (by rw [hfk']; simp)
      have hfirst : loadLine st (jsTrim l) = st ++ [(k, [l])] := by
        rw [hl1.2]
        simp only [loadLine, hl1.1]
        have hhk : ¬ hasKey st k = true := fun hh => hkst (hasKey_iff.mp hh)
        unfold setIfAbsent
        rw [if_neg hhk, pushLine_append, pushLine_of_not_hasKey hkst]
        congr 1
        simp [pushLine]
      have hA := foldl_loadLine_bucket ls k st [l]
        (fun x hx => hlines k (by simp) x (by rw [hfk']; simp [hx])) hkst
      rw [hfk', List.foldl_cons, hfirst, hA]
      rw [ih (st ++ [(k, [l] ++ ls)]) (List.nodup_cons.mp hnd).2
        (fun x hx => hlines x (by simp [hx]))
        (fun x hx => by
          simp only [List.map_append, List.mem_append]
          rintro (hmem | hmem)
          · exact hdisj x (by simp [hx]) hmem
          · have hxk : x = k := by simpa using hmem
            exact (List.nodup_cons.mp hnd).1 (hxk ▸ hx))]
      unfold groupsOut
      rw [List.filterMap_cons]
      simp only [hfk, if_false]
      rw [List.append_assoc]
      congr 1
      rw [hfk']
      rfl

theorem load_serialize {st : Store} (h : WFStore st) :
    load (serialize st) = groupsOut (sortedKeysDesc st) (getBucket st) := by
  obtain ⟨hnd, hlines⟩ := h
  have hbucket : ∀ k ∈ sortedKeysDesc st, ∀ l ∈ getBucket st k,
      lineKey l = some k ∧ jsTrim l = l ∧ isBlank l = false := by
    intro k hk l hl
    have hk' : k ∈ st.map Prod.fst := ((sortedKeysDesc_perm st).mem_iff).mp hk
    obtain ⟨e, he, hke⟩ := List.mem_map.mp hk'
    have hpair : (k, e.2) ∈ st := by
      have : e = (k, e.2) := by
        cases e with
        | mk a b => simp at hke; rw [hke]
      rw [← this]; exact he
    have hb : getBucket st k = e.2 := getBucket_of_mem hnd hpair
    rw [hb] at hl
    have hcond := hlines e he l hl
    rw [hke] at hcond
    exact hcond
  unfold load serialize
  have hfilter :
      (headerLine :: (sortedKeysDesc st).flatMap (fun k => getBucket st k)).filter
        (fun l => !isBlank l)
      = headerLine :: (sortedKeysDesc st).flatMap (fun k => getBucket st k) := by
    rw [List.filter_eq_self]
    intro l hl
    rcases List.mem_cons.mp hl with hhd | hl'
    · rw [hhd]; decide
    · obtain ⟨k, hk, hlk⟩ := List.mem_flatMap.mp hl'
      have := (hbucket k hk l hlk).2.2
      simp [this]
  rw [hfilter]
  have hdrop :
      ((headerLine :: (sortedKeysDesc st).flatMap (fun k => getBucket st k)).drop 1)
      = (sortedKeysDesc st).flatMap (fun k => getBucket st k) := rfl
  rw [hdrop]
  have := foldl_loadLine_groups (sortedKeysDesc st) (getBucket st) emptyStore
    ((sortedKeysDesc_perm st).nodup_iff.mpr hnd)
    (fun k hk l hl => ⟨(hbucket k hk l hl).1, (hbucket k hk l hl).2.1⟩)
    (fun k _ => by simp [emptyStore])
  rw [this]
  rfl

theorem sortDesc_fixed {L : List Str}
    (h : List.Sorted (fun a b : Str => b ≤ a) L) :
    (List.insertionSort (· ≤ ·) L).reverse = L := by
  have h1 : List.Sorted (· ≤ ·) L.reverse := by
    rw [List.Sorted, List.pairwise_reverse]
    exact h
  have h2 : List.Perm (List.insertionSort (· ≤ ·) L) L.reverse :=
    (List.perm_insertionSort _ _).trans (List.reverse_perm L).symm
  have h3 := List.eq_of_perm_of_sorted h2 (List.sorted_insertionSort _ _) h1
  rw [h3, List.reverse_reverse]

theorem groupsOut_keys (ks : List Str) (f : Str → List Str) :
    (groupsOut ks f).map Prod.fst = ks.filter (fun k => !(f k).isEmpty) := by
  induction ks with
  | nil => rfl
  | cons k ks ih =>
    unfold groupsOut at *
    rw [List.filterMap_cons, List.filter_cons]
    by_cases hfk : f k = []
    · simp [hfk, ih]
    · simp [hfk, ih]

theorem getBucket_groupsOut {ks : List Str} {f : Str → List Str} (hnd : ks.Nodup)
    {k : Str} (hk : k ∈ ks) (hne : ¬ f k = []) :
    getBucket (groupsOut ks f) k = f k := by
  have hmem : (k, f k) ∈ groupsOut ks f := by
    unfold groupsOut
    rw [List.mem_filterMap]
    exact ⟨k, hk, by simp [hne]⟩
  have hndG : ((groupsOut ks f).map Prod.fst).Nodup := by
    rw [groupsOut_keys]
    exact hnd.filter _
  exact getBucket_of_mem hndG hmem

theorem flatMap_congr_mem {α β : Type} {l : List α} {f g : α → List β}
    (h : ∀ a ∈ l, f a = g a) : l.flatMap f = l.flatMap g := by
  induction l with
  | nil => rfl
  | cons a l ih =>
    rw [List.flatMap_cons, List.flatMap_cons, h a (by simp),
      ih (fun x hx => h x (by simp [hx]))]

theorem flatMap_filter_nonempty (ks : List Str) (f : Str → List Str) :
    (ks.filter (fun k => !(f k).isEmpty)).flatMap f = ks.flatMap f := by
  induction ks with
  | nil => rfl
  | cons k ks ih =>
    rw [List.filter_cons, List.flatMap_cons]
    by_cases hfk : f k = []
    · simp only [hfk, List.isEmpty_nil, Bool.not_true]
      rw [if_neg (by simp), ih]
      rfl
    · have hc : (!(f k).isEmpty) = true := by
        simp [List.isEmpty_iff, hfk]
      rw [if_pos hc, List.flatMap_cons, ih]

theorem serialize_groupsOut (st : Store) (hnd : (st.map Prod.fst).Nodup) :
    serialize (groupsOut (sortedKeysDesc st) (getBucket st)) = serialize st := by
  have hndks : (sortedKeysDesc st).Nodup := (sortedKeysDesc_perm st).nodup_iff.mpr hnd
  have hsorted := sortedKeysDesc_sorted st
  have hsortG : sortedKeysDesc (groupsOut (sortedKeysDesc st) (getBucket st))
      = (sortedKeysDesc st).filter (fun k => !(getBucket st k).isEmpty) := by
    unfold sortedKeysDesc
    rw [groupsOut_keys]
    exact sortDesc_fixed (hsorted.filter _)
  unfold serialize
  congr 1
  rw [hsortG]
  have hcongr : ∀ k ∈ (sortedKeysDesc st).filter (fun k => !(getBucket st k).isEmpty),
      getBucket (groupsOut (sortedKeysDesc st) (getBucket st)) k = getBucket st k := by
    intro k hkmem
    have h1 := List.mem_filter.mp hkmem
    exact getBucket_groupsOut hndks h1.1 (by simpa [List.isEmpty_iff] using h1.2)
  rw [flatMap_congr_mem hcongr, flatMap_filter_nonempty]

/-- A well-formed two-day store for concrete checks. -/
def wfExampleStore : Store :=
  [("113/11/29".data, ["113/11/29,A,FV001,x,y,1,2,3,4,5".data]),
   ("113/11/28".data, ["113/11/28,A,FV002,x,y,1,2,3,4,5".data,
                       "113/11/28,B,FV003,x,y,1,2,3,4,5".data])]

/-- C7: for every well-formed store (each bucket line's first field is
its bucket's date key, lines trimmed and non-blank, keys distinct),
loading the serialized rows back — skipping the header and keying each
row by its first field — and serializing again reproduces exactly the
same rows in the same order. -/
theorem serialize_load_roundtrip (st : Store) (h : WFStore st) :
    serialize (load (serialize st)) = serialize st := by
  rw [load_serialize h, serialize_groupsOut st h.1]

/-- C7 witness: the round trip at a concrete two-day store. -/
theorem serialize_load_roundtrip_witness :
    serialize (load (serialize wfExampleStore)) = serialize wfExampleStore :=
  serialize_load_roundtrip wfExampleStore (by decide)

/-! ## C10: decimal keys and lexicographic versus chronological order -/

/-- Number of decimal digits of `n`, as `String(n)` renders it. -/
def numDigits (n : Nat) : Nat := (natChars n).length

theorem natChars_length_lt10 {n : Nat} (h : n < 10) : (natChars n).length = 1 := by
  rw [natChars_eq, if_pos h]
  rfl

theorem natChars_length_ge10 {n : Nat} (h : ¬ n < 10) :
    (natChars n).length = (natChars (n / 10)).length + 1 := by
  rw [natChars_eq, if_neg h, List.length_append]
  rfl

theorem natChars_length_pos (n : Nat) : 0 < (natChars n).length := by
  by_cases h : n < 10
  · rw [natChars_length_lt10 h]
    omega
  · rw [natChars_length_ge10 h]
    omega

theorem digitChar_lt_iff : ∀ a, a < 10 → ∀ b, b < 10 →
    (Nat.digitChar a < Nat.digitChar b ↔ a < b) := by decide

theorem digitChar_eq_iff : ∀ a, a < 10 → ∀ b, b < 10 →
    (Nat.digitChar a = Nat.digitChar b ↔ a = b) := by decide

theorem strLt_cons_iff {a b : Char} {as bs : List Char} :
    (a :: as) < (b :: bs) ↔ a < b ∨ (a = b ∧ as < bs) := by
  constructor
  · intro h
    cases h with
    | cons h' => exact Or.inr ⟨rfl, h'⟩
    | rel h' => exact Or.inl h'
  · rintro (h | ⟨rfl, h⟩)
    · exact List.Lex.rel h
    · exact List.Lex.cons h

theorem lex_append_iff : ∀ (xs ys : List Char), xs.length = ys.length →
    ∀ (cs ds : List Char),
    (xs ++ cs < ys ++ ds ↔ xs < ys ∨ (xs = ys ∧ cs < ds)) := by
  intro xs
  induction xs with
  | nil =>
    intro ys hlen cs ds
    have hys : ys = [] := List.length_eq_zero.mp hlen.symm
    subst hys
    rw [List.nil_append, List.nil_append]
    constructor
    · intro h
      exact Or.inr ⟨rfl, h⟩
    · rintro (h | ⟨_, h⟩)
      · exact absurd h (lt_irrefl _)
      · exact h
  | cons x xs ih =>
    intro ys hlen cs ds
    cases ys with
    | nil => simp at hlen
    | cons y ys' =>
      simp only [List.cons_append]
      rw [strLt_cons_iff, strLt_cons_iff, ih ys' (by simpa using hlen) cs ds]
      constructor
      · rintro (h | ⟨rfl, (h | ⟨rfl, h⟩)⟩)
        · exact Or.inl (Or.inl h)
        · exact Or.inl (Or.inr ⟨rfl, h⟩)
        · exact Or.inr ⟨rfl, h⟩
      · rintro ((h | ⟨rfl, h⟩) | ⟨heq, h⟩)
        · exact Or.inl h
        · exact Or.inr ⟨rfl, Or.inl h⟩
        · cases heq
          exact Or.inr ⟨rfl, Or.inr ⟨rfl, h⟩⟩

theorem natChars_inj : ∀ a b : Nat, natChars a = natChars b → a = b := by
  intro a
  induction a using Nat.strong_induction_on with
  | _ a ih =>
    intro b h
    by_cases ha : a < 10
    · by_cases hb : b < 10
      · rw [natChars_eq, if_pos ha, natChars_eq, if_pos hb] at h
        injection h with h1 _
        exact (digitChar_eq_iff a ha b hb).mp h1
      · exfalso
        have h1 := congrArg List.length h
        rw [natChars_length_lt10 ha, natChars_length_ge10 hb] at h1
        have := natChars_length_pos (b / 10)
        omega
    · by_cases hb : b < 10
      · exfalso
        have h1 := congrArg List.length h
        rw [natChars_length_ge10 ha, natChars_length_lt10 hb] at h1
        have := natChars_length_pos (a / 10)
        omega
      · rw [natChars_eq a, if_neg ha, natChars_eq b, if_neg hb] at h
        have hlen : (natChars (a / 10)).length = (natChars (b / 10)).length := by
          have h1 := congrArg List.length h
          simp only [List.length_append, List.length_cons, List.length_nil] at h1
          omega
        obtain ⟨hpre, hsuf⟩ := List.append_inj h hlen
        have h2 : a / 10 = b / 10 := ih (a / 10) (by omega) (b / 10) hpre
        injection hsuf with h4 _
        have h3 : a % 10 = b % 10 :=
          (digitChar_eq_iff (a % 10) (by omega) (b % 10) (by omega)).mp h4
        omega

theorem natChars_lt_iff : ∀ a b : Nat,
    (natChars a).length = (natChars b).length →
    (natChars a < natChars b ↔ a < b) := by
  intro a
  induction a using Nat.strong_induction_on with
  | _ a ih =>
    intro b hlen
    by_cases ha : a < 10
    · by_cases hb : b < 10
      · rw [natChars_eq, if_pos ha, natChars_eq, if_pos hb, strLt_cons_iff]
        constructor
        · rintro (h | ⟨_, h⟩)
          · exact (digitChar_lt_iff a ha b hb).mp h
          · exact absurd h (lt_irrefl _)
        · intro h
          exact Or.inl ((digitChar_lt_iff a ha b hb).mpr h)
      · exfalso
        rw [natChars_length_lt10 ha, natChars_length_ge10 hb] at hlen
        have := natChars_length_pos (b / 10)
        omega
    · by_cases hb : b < 10
      · exfalso
        rw [natChars_length_ge10 ha, natChars_length_lt10 hb] at hlen
        have := natChars_length_pos (a / 10)
        omega
      · have hlen' : (natChars (a / 10)).length = (natChars (b / 10)).length := by
          rw [natChars_length_ge10 ha, natChars_length_ge10 hb] at hlen
          omega
        rw [natChars_eq a, if_neg ha, natChars_eq b, if_neg hb,
          lex_append_iff _ _ hlen']
        constructor
        · rintro (h | ⟨heq, h⟩)
          · have := (ih (a / 10) (by omega) (b / 10) hlen').mp h
            omega
          · have h1 : a / 10 = b / 10 := natChars_inj _ _ heq
            rw [strLt_cons_iff] at h
            rcases h with h | ⟨_, h⟩
            · have := (digitChar_lt_iff _ (by omega) _ (by omega)).mp h
              omega
            · exact absurd h (lt_irrefl _)
        · intro h
          have htri : a / 10 < b / 10 ∨ (a / 10 = b / 10 ∧ a % 10 < b % 10) := by
            omega
          rcases htri with h1 | ⟨h1, h2⟩
          · exact Or.inl ((ih (a / 10) (by omega) (b / 10) hlen').mpr h1)
          · refine Or.inr ⟨by rw [h1], ?_⟩
            rw [strLt_cons_iff]
            exact Or.inl ((digitChar_lt_iff _ (by omega) _ (by omega)).mpr h2)

theorem pad2_eq {m : Nat} (hm : m ≤ 99) :
    pad2 m = [Nat.digitChar (m / 10), Nat.digitChar (m % 10)] := by
  unfold pad2
  by_cases h : m < 10
  · rw [if_pos h, natChars_eq, if_pos h]
    have h1 : m / 10 = 0 := by omega
    have h2 : m % 10 = m := by omega
    rw [h1, h2]
    rfl
  · rw [if_neg h, natChars_eq, if_neg h, natChars_eq, if_pos (by omega : m / 10 < 10)]
    rfl

theorem pad2_length {m : Nat} (hm : m ≤ 99) : (pad2 m).length = 2 := by
  rw [pad2_eq hm]
  rfl

theorem pad2_lt_iff {m n : Nat} (hm : m ≤ 99) (hn : n ≤ 99) :
    pad2 m < pad2 n ↔ m < n := by
  rw [pad2_eq hm, pad2_eq hn, strLt_cons_iff]
  constructor
  · rintro (h | ⟨h1, h⟩)
    · have := (digitChar_lt_iff _ (by omega) _ (by omega)).mp h
      omega
    · have e1 := (digitChar_eq_iff _ (by omega) _ (by omega)).mp h1
      rw [strLt_cons_iff] at h
      rcases h with h | ⟨_, h⟩
      · have := (digitChar_lt_iff _ (by omega) _ (by omega)).mp h
        omega
      · exact absurd h (lt_irrefl _)
  · intro h
    have htri : m / 10 < n / 10 ∨ (m / 10 = n / 10 ∧ m % 10 < n % 10) := by omega
    rcases htri with h1 | ⟨h1, h2⟩
    · exact Or.inl ((digitChar_lt_iff _ (by omega) _ (by omega)).mpr h1)
    · refine Or.inr ⟨(digitChar_eq_iff _ (by omega) _ (by omega)).mpr h1, ?_⟩
      rw [strLt_cons_iff]
      exact Or.inl ((digitChar_lt_iff _ (by omega) _ (by omega)).mpr h2)

theorem pad2_inj {m n : Nat} (hm : m ≤ 99) (hn : n ≤ 99)
    (h : pad2 m = pad2 n) : m = n := by
  rw [pad2_eq hm, pad2_eq hn] at h
  injection h with h1 h2
  injection h2 with h2 _
  have e1 := (digitChar_eq_iff _ (by omega) _ (by omega)).mp h1
  have e2 := (digitChar_eq_iff _ (by omega) _ (by omega)).mp h2
  omega

/-- A calendar date in the crawler's input range. -/
def ValidDate (d : GDate) : Prop :=
  1911 < d.year ∧ 1 ≤ d.month ∧ d.month ≤ 12 ∧ 1 ≤ d.day ∧ d.day ≤ 31

instance (d : GDate) : Decidable (ValidDate d) := by
  unfold ValidDate
  exact instDecidableAnd

/-- Chronological strict order on dates. -/
def chronLt (d d' : GDate) : Prop :=
  d.year < d'.year ∨ (d.year = d'.year ∧
    (d.month < d'.month ∨ (d.month = d'.month ∧ d.day < d'.day)))

/-- Chronological order, reflexive. -/
def chronLe (d d' : GDate) : Prop := chronLt d d' ∨ d = d'

instance : DecidableRel chronLt := fun d d' => by
  unfold chronLt
  exact instDecidableOr

instance : DecidableRel chronLe := fun d d' => by
  unfold chronLe
  exact instDecidableOr

theorem chron_trichotomy {d d' : GDate} (hne : d ≠ d') :
    chronLt d d' ∨ chronLt d' d := by
  unfold chronLt
  rcases Nat.lt_trichotomy d.year d'.year with h1 | h1 | h1
  · exact Or.inl (Or.inl h1)
  · rcases Nat.lt_trichotomy d.month d'.month with h2 | h2 | h2
    · exact Or.inl (Or.inr ⟨h1, Or.inl h2⟩)
    · rcases Nat.lt_trichotomy d.day d'.day with h3 | h3 | h3
      · exact Or.inl (Or.inr ⟨h1, Or.inr ⟨h2, h3⟩⟩)
      · exfalso
        apply hne
        cases d
        cases d'
        simp_all
      · exact Or.inr (Or.inr ⟨h1.symm, Or.inr ⟨h2.symm, h3⟩⟩)
    · exact Or.inr (Or.inr ⟨h1.symm, Or.inl h2⟩)
  · exact Or.inr (Or.inl h1)

instance : IsTrans GDate chronLe where
  trans a b c hab hbc := by
    rcases hab with hab | heq
    · rcases hbc with hbc | heq'
      · left
        unfold chronLt at *
        omega
      · rw [← heq']
        exact Or.inl hab
    · rw [heq]
      exact hbc

instance : IsTotal GDate chronLe where
  total a b := by
    by_cases h : a = b
    · exact Or.inl (Or.inr h)
    · rcases chron_trichotomy h with h1 | h1
      · exact Or.inl (Or.inl h1)
      · exact Or.inr (Or.inl h1)

theorem getRocDate_lt_iff {d d' : GDate} (hd : ValidDate d) (hd' : ValidDate d')
    (hlen : (natChars (d.year - 1911)).length = (natChars (d'.year - 1911)).length) :
    getRocDate d < getRocDate d' ↔ chronLt d d' := by
  obtain ⟨hy, hm1, hm2, hday1, hday2⟩ := hd
  obtain ⟨hy', hm1', hm2', hday1', hday2'⟩ := hd'
  unfold getRocDate chronLt
  rw [lex_append_iff _ _ hlen]
  constructor
  · rintro (h | ⟨heq, h⟩)
    · left
      have := (natChars_lt_iff _ _ hlen).mp h
      omega
    · right
      have hyeq : d.year = d'.year := by
        have := natChars_inj _ _ heq
        omega
      refine ⟨hyeq, ?_⟩
      rw [strLt_cons_iff] at h
      rcases h with h | ⟨_, h⟩
      · exact absurd h (lt_irrefl _)
      · rw [lex_append_iff _ _
          (by rw [pad2_length (by omega), pad2_length (by omega)])] at h
        rcases h with h | ⟨heqm, h⟩
        · exact Or.inl ((pad2_lt_iff (by omega) (by omega)).mp h)
        · refine Or.inr ⟨pad2_inj (by omega) (by omega) heqm, ?_⟩
          rw [strLt_cons_iff] at h
          rcases h with h | ⟨_, h⟩
          · exact absurd h (lt_irrefl _)
          · exact (pad2_lt_iff (by omega) (by omega)).mp h
  · rintro (h | ⟨hyeq, h⟩)
    · left
      refine (natChars_lt_iff _ _ hlen).mpr (by omega)
    · right
      refine ⟨by rw [hyeq], ?_⟩
      rw [strLt_cons_iff]
      right
      refine ⟨rfl, ?_⟩
      rw [lex_append_iff _ _
        (by rw [pad2_length (by omega), pad2_length (by omega)])]
      rcases h with h | ⟨hmeq, h⟩
      · exact Or.inl ((pad2_lt_iff (by omega) (by omega)).mpr h)
      · refine Or.inr ⟨by rw [hmeq], ?_⟩
        rw [strLt_cons_iff]
        exact Or.inr ⟨rfl, (pad2_lt_iff (by omega) (by omega)).mpr h⟩

theorem getRocDate_inj_of {d d' : GDate} (hd : ValidDate d) (hd' : ValidDate d')
    (hlen : (natChars (d.year - 1911)).length = (natChars (d'.year - 1911)).length)
    (h : getRocDate d = getRocDate d') : d = d' := by
  by_contra hne
  rcases chron_trichotomy hne with h1 | h1
  · have := (getRocDate_lt_iff hd hd' hlen).mpr h1
    rw [h] at this
    exact absurd this (lt_irrefl _)
  · have := (getRocDate_lt_iff hd' hd hlen.symm).mpr h1
    rw [h] at this
    exact absurd this (lt_irrefl _)

theorem sort_keys_eq_sort_dates (dates : List GDate)
    (hv : ∀ x ∈ dates, ValidDate x)
    (hl : ∀ x ∈ dates, ∀ y ∈ dates,
      (natChars (x.year - 1911)).length = (natChars (y.year - 1911)).length) :
    (List.insertionSort (· ≤ ·) (dates.map getRocDate)).reverse
      = ((List.insertionSort chronLe dates).map getRocDate).reverse := by
  congr 1
  have hperm : List.Perm (List.insertionSort (· ≤ ·) (dates.map getRocDate))
      ((List.insertionSort chronLe dates).map getRocDate) :=
    (List.perm_insertionSort _ _).trans
      (((List.perm_insertionSort chronLe dates).map getRocDate).symm)
  have hs1 : List.Sorted (· ≤ ·) (List.insertionSort (· ≤ ·) (dates.map getRocDate)) :=
    List.sorted_insertionSort _ _
  have hs2 : List.Sorted (fun a b : Str => a ≤ b)
      ((List.insertionSort chronLe dates).map getRocDate) := by
    rw [List.Sorted, List.pairwise_map]
    have hsort : List.Pairwise chronLe (List.insertionSort chronLe dates) :=
      List.sorted_insertionSort _ _
    refine hsort.imp_of_mem ?_
    intro a b ha hb hab
    have ha' : a ∈ dates := (List.perm_insertionSort chronLe dates).mem_iff.mp ha
    have hb' : b ∈ dates := (List.perm_insertionSort chronLe dates).mem_iff.mp hb
    rcases hab with hab | heq
    · exact le_of_lt ((getRocDate_lt_iff (hv a ha') (hv b hb') (hl a ha' b hb')).mpr hab)
    · rw [heq]
  exact List.eq_of_perm_of_sorted hperm hs1 hs2

/-- C10: `getRocDate` zero-pads month and day to two digits but never the
era year (the key's total length is the year's own digit count plus 6);
for dates with era years of equal digit count the chronological order
coincides with the lexicographic order of their keys, so the serializer's
sort-and-reverse of such keys is exactly the chronological descending
order (it equals the chronologically sorted dates, mapped and reversed). -/
theorem getRocDate_padding_and_order (d d' : GDate)
    (hd : ValidDate d) (hd' : ValidDate d')
    (hlen : numDigits (d.year - 1911) = numDigits (d'.year - 1911)) :
    (pad2 d.month).length = 2 ∧
    (pad2 d.day).length = 2 ∧
    (getRocDate d).length = numDigits (d.year - 1911) + 6 ∧
    (chronLt d d' ↔ getRocDate d < getRocDate d') ∧
    (d = d' ↔ getRocDate d = getRocDate d') ∧
    (∀ dates : List GDate, (∀ x ∈ dates, ValidDate x) →
      (∀ x ∈ dates, numDigits (x.year - 1911) = numDigits (d.year - 1911)) →
      (List.insertionSort (· ≤ ·) (dates.map getRocDate)).reverse
        = ((List.insertionSort chronLe dates).map getRocDate).reverse) := by
  obtain ⟨hy, hm1, hm2, hday1, hday2⟩ := hd
  have hdv : ValidDate d := ⟨hy, hm1, hm2, hday1, hday2⟩
  refine ⟨pad2_length (by omega), pad2_length (by omega), ?_, ?_, ?_, ?_⟩
  · unfold getRocDate numDigits
    rw [List.length_append, List.length_cons, List.length_append, List.length_cons,
      pad2_length (by omega), pad2_length (by omega)]
  · exact (getRocDate_lt_iff hdv hd' hlen).symm
  · constructor
    · intro h
      rw [h]
    · exact getRocDate_inj_of hdv hd' hlen
  · intro dates hval hlens
    exact sort_keys_eq_sort_dates dates hval
      (fun x hx y hy => (hlens x hx).trans (hlens y hy).symm)

/-- C10 witness: two concrete 2024 dates. -/
theorem getRocDate_padding_and_order_witness :
    getRocDate ⟨2024, 3, 5⟩ < getRocDate ⟨2024, 11, 29⟩ :=
  ((getRocDate_padding_and_order ⟨2024, 3, 5⟩ ⟨2024, 11, 29⟩
    (by decide) (by decide) (by decide)).2.2.2.1).mp (by decide)

end Crawler
